import Mathlib

/-!
# ipfs-crawl: the discovery loop of `crawler.go`

A shallow embedding of `crawler.go` and the properties of its discovery loop.

* The DHT and the host are black boxes.  They are modelled as oracles over an
  arbitrary world state `σ`: every call receives the current world and returns
  its answer together with the next world, so answers may change between calls.
* The sequences ranged over (`for p := range pch`) are the lists of values
  received from the channel until it is closed.  The theorems hold for every
  oracle and every world, so the list may be any finite sequence the DHT ends up
  delivering on that channel.
* The send `c.work <- pi` of `crawlPeer` is a plain send on a buffered channel: it
  completes when the buffer has room, at once or after waiting for a worker to
  receive, and otherwise it never completes.  Which of the two happens is decided
  by the rest of the system, so it is an oracle too (`Chan`); a send that never
  completes leaves the crawler at the send (`halted = some Halt.blocked`).
* `crawlPeer` is recursive without a bound in the source.  The embedding carries a
  recursion budget (the allowed call depth); running out of it is recorded in the
  crawler state (`halted = some Halt.depth`) and is never confused with a return.
* An execution that stopped (`log.Fatal`, a send that never completes, or the
  budget ran out) does nothing further: every operation returns a halted crawler
  unchanged.
* The goroutines (one discovery task, `WORKERS` workers) and the buffered channel
  are modelled by an interleaving step function on `System`.
-/

namespace IpfsCrawl

/-! ## Data model -/

/-- Stand-in for `peer.ID`: only equality is used by the crawler. -/
abbrev PeerID := Nat

/-- Stand-in for a multiaddr. -/
abbrev Multiaddr := Nat

/-- Embedding of `pstore.PeerInfo`. -/
structure PeerInfo where
  ID : PeerID
  Addrs : List Multiaddr
deriving DecidableEq, Repr

/-- The constant `WORKERS = 16`: the number of workers and the capacity of `c.work`. -/
def WORKERS : Nat := 16

/-- The DHT capabilities used by the crawler, as oracles over a world state. `none` is the
`err != nil` answer. -/
structure DHT (σ : Type) where
  GetClosestPeers : σ → String → Option (List PeerID) × σ
  FindPeer : σ → PeerID → Option PeerInfo × σ
  FindPeersConnectedToPeer : σ → PeerID → Option (List PeerInfo) × σ

/-- The host capability used by the workers: `Connect` answers `true` when `err == nil`. -/
structure Host (σ : Type) where
  Connect : σ → PeerInfo → Bool × σ

/-- The channel `c.work` as the discovery task meets it at `c.work <- pi`: the answer is `true`
when the send completes (the buffer has room, at once or after workers received) and `false`
when it never completes (the buffer is full and nothing receives any more). The world moves on
while the send waits. -/
structure Chan (σ : Type) where
  Send : σ → PeerInfo → Bool × σ

/-- What the crawler did, in program order: the calls it made on the DHT and the host with
their outcome, and the values it put to the send statement `c.work <- pi`. -/
inductive Event where
  | getClosestPeers (key : String) (ok : Bool)
  | findPeer (p : PeerID) (res : Option PeerInfo)
  | send (pi : PeerInfo)
  | findPeersConnectedToPeer (p : PeerID) (ok : Bool)
  | connect (pi : PeerInfo) (ok : Bool)
deriving DecidableEq, Repr

/-- Why an execution stopped without returning: `log.Fatal`, a send `c.work <- pi` that never
completes, or the recursion budget of the embedding ran out. -/
inductive Halt where
  | fatal
  | blocked
  | depth
deriving DecidableEq, Repr

/-- Embedding of `type Crawler struct`: `peers` is the key set of the map `c.peers`, `work` is
the sequence of values put to the send `c.work <- pi` so far (oldest first; the channel has
taken all of them, except the last one when `halted = some Halt.blocked`), `world` is the state
of the DHT, the host and the channel behind `c.dht`, `c.h` and `c.work`. -/
structure Crawler (σ : Type) where
  peers : Finset PeerID
  work : List PeerInfo
  world : σ
  trace : List Event
  halted : Option Halt

/-- Embedding of `NewCrawler`: empty map, empty channel. -/
def NewCrawler {σ : Type} (w : σ) : Crawler σ :=
  { peers := ∅, work := [], world := w, trace := [], halted := none }

/-! ## The discovery task -/

/-- Embedding of `for x := range ch { body(x) }` over the values received from the channel. -/
def rangeLoop {σ : Type} (body : PeerID → Crawler σ → Crawler σ) :
    List PeerID → Crawler σ → Crawler σ
  | [], c => c
  | p :: ps, c => rangeLoop body ps (body p c)

/-- Embedding of `Crawler.crawlPeer`. The first argument after the oracles is the recursion
budget. -/
def crawlPeer {σ : Type} (d : DHT σ) (k : Chan σ) : Nat → PeerID → Crawler σ → Crawler σ
  | 0, _, c => if c.halted.isSome then c else { c with halted := some Halt.depth }
  | n + 1, p, c =>
    if c.halted.isSome then c
    else if p ∈ c.peers then c
    else
      match d.FindPeer c.world p with
      | (none, w1) =>
        { c with world := w1, trace := c.trace ++ [Event.findPeer p none] }
      | (some pi, w1) =>
        let c1 : Crawler σ :=
          { c with
            peers := insert p c.peers
            work := c.work ++ [pi]
            world := w1
            trace := c.trace ++ [Event.findPeer p (some pi), Event.send pi] }
        match k.Send c1.world pi with
        | (false, w2) =>
          { c1 with world := w2, halted := some Halt.blocked }
        | (true, w2) =>
          match d.FindPeersConnectedToPeer w2 p with
          | (none, w3) =>
            { c1 with world := w3,
                      trace := c1.trace ++ [Event.findPeersConnectedToPeer p false] }
          | (some pch, w3) =>
            rangeLoop (crawlPeer d k n) (pch.map PeerInfo.ID)
              { c1 with world := w3,
                        trace := c1.trace ++ [Event.findPeersConnectedToPeer p true] }

/-- Embedding of `Crawler.crawlFromAnchor`: a failed `GetClosestPeers` is `log.Fatal`. -/
def crawlFromAnchor {σ : Type} (d : DHT σ) (k : Chan σ) (n : Nat) (key : String)
    (c : Crawler σ) : Crawler σ :=
  if c.halted.isSome then c
  else
    match d.GetClosestPeers c.world key with
    | (none, w1) =>
      { c with world := w1, trace := c.trace ++ [Event.getClosestPeers key false],
               halted := some Halt.fatal }
    | (some pch, w1) =>
      rangeLoop (crawlPeer d k n) pch
        { c with world := w1, trace := c.trace ++ [Event.getClosestPeers key true] }

/-- One iteration of the `for` loop of `Crawl`, as the environment decides it: what
`rand.Read` and the base64 encoding produced (`none` when `rand.Read` failed), the recursion
budget of the round, and which branch of the final `select` fired (`cancelled = true` for
`<-c.ctx.Done()`, `false` for the 60 second timer). -/
structure Round where
  anchor : Option String
  budget : Nat
  cancelled : Bool

/-- Embedding of `Crawler.Crawl`: one list element per iteration of its `for` loop. When the
list ends with the loop still running, the execution is cut there. -/
def Crawl {σ : Type} (d : DHT σ) (k : Chan σ) : List Round → Crawler σ → Crawler σ
  | [], c => if c.halted.isSome then c else { c with halted := some Halt.depth }
  | r :: rs, c =>
    if c.halted.isSome then c
    else
      match r.anchor with
      | none => { c with halted := some Halt.fatal }
      | some str =>
        let c1 := crawlFromAnchor d k r.budget str c
        if r.cancelled then c1 else Crawl d k rs c1

/-! ## The workers -/

/-- Embedding of `Crawler.tryConnect`. -/
def tryConnect {σ : Type} (h : Host σ) (pi : PeerInfo) (c : Crawler σ) : Crawler σ :=
  if c.halted.isSome then c
  else
    match h.Connect c.world pi with
    | (ok, w1) => { c with world := w1, trace := c.trace ++ [Event.connect pi ok] }

/-- Which case of the `select` in `worker` fires: a value received from `c.work`, `c.work`
closed (`!ok`), or `c.ctx.Done()`. -/
inductive Select where
  | recv (pi : PeerInfo)
  | closed
  | done
deriving DecidableEq, Repr

/-- Embedding of `Crawler.worker`: one list element per `select`. -/
def worker {σ : Type} (h : Host σ) : List Select → Crawler σ → Crawler σ
  | [], c => c
  | Select.recv pi :: rest, c => worker h rest (tryConnect h pi c)
  | Select.closed :: _, c => c
  | Select.done :: _, c => c

/-! ## Runs -/

/-- A call made on the crawler during a run. -/
inductive Call where
  | crawlPeer (budget : Nat) (p : PeerID)
  | crawlFromAnchor (budget : Nat) (key : String)
  | Crawl (rounds : List Round)

/-- Perform one call. -/
def Call.exec {σ : Type} (d : DHT σ) (k : Chan σ) : Call → Crawler σ → Crawler σ
  | Call.crawlPeer n p, c => IpfsCrawl.crawlPeer d k n p c
  | Call.crawlFromAnchor n key, c => IpfsCrawl.crawlFromAnchor d k n key c
  | Call.Crawl rounds, c => IpfsCrawl.Crawl d k rounds c

/-- Perform a sequence of calls, one after the other, on the same crawler. -/
def execAll {σ : Type} (d : DHT σ) (k : Chan σ) : List Call → Crawler σ → Crawler σ
  | [], c => c
  | call :: calls, c => execAll d k calls (call.exec d k c)

/-- The identifier asked for and the `PeerInfo` obtained, when the event is a successful
`FindPeer` call. -/
def Event.resolution : Event → Option (PeerID × PeerInfo)
  | Event.findPeer p (some pi) => some (p, pi)
  | _ => none

/-- The value sent, when the event is a send on `c.work`. -/
def Event.sending : Event → Option PeerInfo
  | Event.send pi => some pi
  | _ => none

/-- The successful `FindPeer` calls of a trace, in order. -/
def resolved (tr : List Event) : List (PeerID × PeerInfo) :=
  tr.filterMap Event.resolution

/-- The values put to the send `c.work <- pi` according to a trace, in order. -/
def sent (tr : List Event) : List PeerInfo :=
  tr.filterMap Event.sending

/-! ## Static DHTs -/

/-- A DHT whose answers never change: a fixed closest-peers list per key, a fixed partial
`FindPeer`, a fixed neighbour list (or an error) per peer. -/
structure StaticDHT where
  closest : String → Option (List PeerID)
  find : PeerID → Option PeerInfo
  connected : PeerID → Option (List PeerInfo)

/-- A static DHT as an oracle: its answers do not depend on the world and leave it as it
is. -/
def StaticDHT.toDHT {σ : Type} (g : StaticDHT) : DHT σ where
  GetClosestPeers := fun w key => (g.closest key, w)
  FindPeer := fun w p => (g.find p, w)
  FindPeersConnectedToPeer := fun w p => (g.connected p, w)

/-- A channel on which every send completes: the workers keep up with the discovery task. -/
def ready {σ : Type} : Chan σ where
  Send := fun w _ => (true, w)

/-- A channel that takes a given number of values and no more: the world counts the sends
that will still complete. With 32, this is the channel of `NewCrawler` when each of the 16
workers receives one value and returns and 16 values stay in the buffer. -/
def limited : Chan Nat where
  Send := fun w _ => (decide (0 < w), w - 1)

/-- Reference traversal, written from the specification and not from `crawlPeer`: visit `p`
depth-first in pre-order. A peer already visited is passed over, a peer whose `FindPeer` fails
is skipped, otherwise `FindPeer p` is emitted and the neighbours of `p` are visited in yield
order. The accumulator is the pair of the visited set and the emitted sequence; the result is
`none` when the traversal is deeper than the budget. -/
def dfsVisit (g : StaticDHT) :
    Nat → PeerID → Finset PeerID × List PeerInfo → Option (Finset PeerID × List PeerInfo)
  | 0, _, _ => none
  | n + 1, p, (seen, out) =>
    if p ∈ seen then some (seen, out)
    else
      match g.find p with
      | none => some (seen, out)
      | some pi =>
        match g.connected p with
        | none => some (insert p seen, out ++ [pi])
        | some ns =>
          (ns.map PeerInfo.ID).foldlM (fun acc q => dfsVisit g n q acc)
            (insert p seen, out ++ [pi])

/-- Reference depth-first pre-order traversal from a list of roots, in list order, starting
with nothing visited. -/
def dfsPreorder (g : StaticDHT) (n : Nat) (roots : List PeerID) :
    Option (Finset PeerID × List PeerInfo) :=
  roots.foldlM (fun acc q => dfsVisit g n q acc) (∅, [])

/-- Scenario S1: the one-peer universe, `A = 0` with address `addr1 = 1`. -/
def s1 : StaticDHT where
  closest := fun _ => some [0]
  find := fun p => if p = 0 then some ⟨0, [1]⟩ else none
  connected := fun p => if p = 0 then some [] else none

/-- Scenario S2: the cycle `A -> B -> A`, with `A = 0`, `B = 1`, `a1 = 10`, `b1 = 11`. -/
def s2 : StaticDHT where
  closest := fun _ => some [0]
  find := fun p =>
    if p = 0 then some ⟨0, [10]⟩ else if p = 1 then some ⟨1, [11]⟩ else none
  connected := fun p =>
    if p = 0 then some [⟨1, [11]⟩] else if p = 1 then some [⟨0, [10]⟩] else none

/-- Scenario S3: the DHT yields `A = 0` and `FindPeer A` fails. -/
def s3 : StaticDHT where
  closest := fun _ => some [0]
  find := fun _ => none
  connected := fun _ => none

/-- What the reference traversal answers for a crawler state reached from the same start:
the registry and the sent values when the crawler has not halted, nothing otherwise. -/
def outcome (c : Crawler Unit) : Option (Finset PeerID × List PeerInfo) :=
  if c.halted = none then some (c.peers, c.work) else none

/-! ## The goroutines and the channel

`NewCrawler` makes a channel with a buffer of `WORKERS` values and starts `WORKERS` goroutines
running `worker`; the caller then runs `Crawl` on one more goroutine (the discovery task). The
interleavings of these tasks are the sequences of `Action`s that `step` accepts. -/

/-- Where a `worker` goroutine stands: at its `select`, inside `tryConnect pi`, or returned. -/
inductive WorkerPC where
  | selecting
  | connecting (pi : PeerInfo)
  | returned
deriving DecidableEq, Repr

/-- Where the discovery task stands: somewhere outside the channel send, at the statement
`c.work <- pi` of `crawlPeer` with the send not yet done, or returned from `Crawl`. -/
inductive DiscoveryPC where
  | running
  | sending (pi : PeerInfo)
  | returned
deriving DecidableEq, Repr

/-- The state shared by the tasks: the buffer of `c.work`, the workers, the discovery task,
and whether `c.ctx` is cancelled. -/
structure System where
  queue : List PeerInfo
  workers : List WorkerPC
  discovery : DiscoveryPC
  cancelled : Bool
deriving DecidableEq, Repr

/-- The system right after `NewCrawler`, with `Crawl` started. -/
def NewSystem : System :=
  { queue := [], workers := List.replicate WORKERS WorkerPC.selecting,
    discovery := DiscoveryPC.running, cancelled := false }

/-- One atomic move of one task (or of whoever holds the cancel function of `c.ctx`). -/
inductive Action where
  | cancel
  | reachSend (pi : PeerInfo)
  | completeSend
  | crawlReturn
  | receive (i : Nat)
  | connectReturn (i : Nat)
  | workerReturn (i : Nat)
deriving DecidableEq, Repr

/-- The moves the code allows, `none` when the move is not enabled.

* `cancel`: `c.ctx` is cancelled.
* `reachSend pi`: `crawlPeer` arrives at `c.work <- pi`.
* `completeSend`: the send completes; a plain send on a buffered channel needs room in the
  buffer, and nothing else.
* `crawlReturn`: the `select` of `Crawl` takes `<-c.ctx.Done()`.
* `receive i`: the `select` of worker `i` takes `pi, ok := <-c.work` and calls `tryConnect pi`.
* `connectReturn i`: `tryConnect` returns in worker `i`.
* `workerReturn i`: the `select` of worker `i` takes `<-c.ctx.Done()`. -/
def step : Action → System → Option System
  | Action.cancel, s => some { s with cancelled := true }
  | Action.reachSend pi, s =>
    match s.discovery with
    | DiscoveryPC.running => some { s with discovery := DiscoveryPC.sending pi }
    | _ => none
  | Action.completeSend, s =>
    match s.discovery with
    | DiscoveryPC.sending pi =>
      if s.queue.length < WORKERS then
        some { s with queue := s.queue ++ [pi], discovery := DiscoveryPC.running }
      else none
    | _ => none
  | Action.crawlReturn, s =>
    match s.discovery with
    | DiscoveryPC.running =>
      if s.cancelled then some { s with discovery := DiscoveryPC.returned } else none
    | _ => none
  | Action.receive i, s =>
    match s.workers.get? i, s.queue with
    | some WorkerPC.selecting, pi :: rest =>
      some { s with queue := rest, workers := s.workers.set i (WorkerPC.connecting pi) }
    | _, _ => none
  | Action.connectReturn i, s =>
    match s.workers.get? i with
    | some (WorkerPC.connecting _) =>
      some { s with workers := s.workers.set i WorkerPC.selecting }
    | _ => none
  | Action.workerReturn i, s =>
    match s.workers.get? i with
    | some WorkerPC.selecting =>
      if s.cancelled then some { s with workers := s.workers.set i WorkerPC.returned }
      else none
    | _ => none

/-- Perform a schedule, `none` when one of its moves is not enabled. -/
def run : List Action → System → Option System
  | [], s => some s
  | a :: as, s =>
    match step a s with
    | none => none
    | some s1 => run as s1

/-- The number of workers inside `tryConnect`. -/
def System.dialing (s : System) : Nat :=
  s.workers.countP (fun w => w matches WorkerPC.connecting _)

/-- A DHT with 33 peers `0 .. 32`, all resolvable, none with neighbours. -/
def thirtyThree : StaticDHT where
  closest := fun _ => some (List.range 33)
  find := fun p => some ⟨p, []⟩
  connected := fun _ => some []

/-- The values the discovery task sends during one round on `thirtyThree`. -/
def thirtyThreeSends : List PeerInfo :=
  (crawlFromAnchor thirtyThree.toDHT ready 1 "anchor" (NewCrawler ())).work

/-- A schedule for the round on `thirtyThree`: the first 16 values are sent and each is taken
by a worker, which stays inside `tryConnect`; the next 16 values fill the buffer; the
discovery task arrives at the send of the 33rd value; the context is cancelled; every
`tryConnect` returns; the `select` of every worker takes `<-c.ctx.Done()`. -/
def blockedSchedule : List Action :=
  ((List.range 16).map fun i =>
      [Action.reachSend (thirtyThreeSends.getD i ⟨0, []⟩), Action.completeSend,
        Action.receive i]).flatten
    ++ ((List.range 16).map fun i =>
      [Action.reachSend (thirtyThreeSends.getD (16 + i) ⟨0, []⟩), Action.completeSend]).flatten
    ++ [Action.reachSend (thirtyThreeSends.getD 32 ⟨0, []⟩), Action.cancel]
    ++ (List.range 16).map Action.connectReturn
    ++ (List.range 16).map Action.workerReturn

/-- A short schedule: two values are sent and worker 3 takes the first. -/
def sampleSchedule : List Action :=
  [Action.reachSend ⟨0, [10]⟩, Action.completeSend, Action.reachSend ⟨1, [11]⟩,
    Action.completeSend, Action.receive 3]

/-- The state `sampleSchedule` leads to. -/
def sampleState : System :=
  { queue := [⟨1, [11]⟩]
    workers := (List.replicate 16 WorkerPC.selecting).set 3 (WorkerPC.connecting ⟨0, [10]⟩)
    discovery := DiscoveryPC.running
    cancelled := false }

/-- Scenario for a failing neighbour query: `FindPeer 0` succeeds and
`FindPeersConnectedToPeer 0` fails. -/
def noNeighbours : StaticDHT where
  closest := fun _ => some [0, 1]
  find := fun p => some ⟨p, [p + 10]⟩
  connected := fun _ => none

/-- A DHT whose answers change between calls: the world counts the `FindPeer` calls, the
first of which fails and the later ones succeed. -/
def flaky : DHT Nat where
  GetClosestPeers := fun w _ => (some [0], w)
  FindPeer := fun w p => (if w = 0 then none else some ⟨p, [p + 10]⟩, w + 1)
  FindPeersConnectedToPeer := fun w _ => (some [], w)

/-- The walk has ended without running out of budget: it has returned, or it stands at a send
that the channel refuses. -/
def Settled {σ : Type} (k : Chan σ) (c : Crawler σ) : Prop :=
  c.halted = none ∨ (c.halted = some Halt.blocked ∧ ∃ w pi w2, k.Send w pi = (false, w2))

/-- The crawler on the DHT `thirtyThree` and the channel `limited` with 32 sends to come, after
the round has walked the peers `0 .. 31`. -/
def afterThirtyTwo : Crawler Nat :=
  rangeLoop (crawlPeer thirtyThree.toDHT limited 1) (List.range 32)
    { NewCrawler 32 with trace := [Event.getClosestPeers "anchor" true] }

/-- The bookkeeping invariant: the registry is the set of identifiers resolved, each resolved
once, and the values sent are the values resolved, in the same order. -/
def Booked {σ : Type} (c : Crawler σ) : Prop :=
  (∀ p, p ∈ c.peers ↔ p ∈ (resolved c.trace).map Prod.fst) ∧
  ((resolved c.trace).map Prod.fst).Nodup ∧
  c.work = (resolved c.trace).map Prod.snd ∧
  sent c.trace = c.work

/-! ## Invariants of the discovery task -/

section Invariants

variable {σ : Type}

/-- A property of the crawler state that every elementary state change of the discovery task
keeps. -/
structure Stable (d : DHT σ) (I : Crawler σ → Prop) : Prop where
  halt : ∀ (c : Crawler σ) (h : Halt), I c → I { c with halted := some h }
  closest : ∀ (c : Crawler σ) (key : String) (b : Bool) (w : σ), I c →
    I { c with world := w, trace := c.trace ++ [Event.getClosestPeers key b] }
  missing : ∀ (c : Crawler σ) (p : PeerID) (w : σ), I c →
    I { c with world := w, trace := c.trace ++ [Event.findPeer p none] }
  found : ∀ (c : Crawler σ) (p : PeerID) (pi : PeerInfo) (w : σ),
    p ∉ c.peers → d.FindPeer c.world p = (some pi, w) → I c →
    I { c with peers := insert p c.peers, work := c.work ++ [pi], world := w,
               trace := c.trace ++ [Event.findPeer p (some pi), Event.send pi] }
  waited : ∀ (c : Crawler σ) (w : σ), I c → I { c with world := w }
  neighbours : ∀ (c : Crawler σ) (p : PeerID) (b : Bool) (w : σ), I c →
    I { c with world := w, trace := c.trace ++ [Event.findPeersConnectedToPeer p b] }

theorem rangeLoop_keeps (I : Crawler σ → Prop) (body : PeerID → Crawler σ → Crawler σ)
    (hbody : ∀ p c, I c → I (body p c)) :
    ∀ (ps : List PeerID) (c : Crawler σ), I c → I (rangeLoop body ps c) := by
  intro ps
  induction ps with
  | nil => intro c hc; exact hc
  | cons p ps ih => intro c hc; exact ih _ (hbody p c hc)

theorem crawlPeer_keeps {d : DHT σ} (k : Chan σ) {I : Crawler σ → Prop} (hI : Stable d I) :
    ∀ (n : Nat) (p : PeerID) (c : Crawler σ), I c → I (crawlPeer d k n p c) := by
  intro n
  induction n with
  | zero =>
    intro p c hc
    unfold crawlPeer
    split
    · exact hc
    · exact hI.halt c Halt.depth hc
  | succ n ih =>
    intro p c hc
    unfold crawlPeer
    split
    · exact hc
    · split
      · exact hc
      · rename_i hp
        split
        · rename_i w1 hfind
          exact hI.missing c p w1 hc
        · rename_i pi w1 hfind
          have h1 := hI.found c p pi w1 hp hfind hc
          dsimp only
          split
          · rename_i w2 hsend
            exact hI.halt _ Halt.blocked (hI.waited _ w2 h1)
          · rename_i w2 hsend
            have h2 := hI.waited _ w2 h1
            split
            · rename_i w3 hconn
              exact hI.neighbours _ p false w3 h2
            · rename_i pch w3 hconn
              exact rangeLoop_keeps I _ ih _ _ (hI.neighbours _ p true w3 h2)

theorem crawlFromAnchor_keeps {d : DHT σ} (k : Chan σ) {I : Crawler σ → Prop}
    (hI : Stable d I) (n : Nat) (key : String) (c : Crawler σ) (hc : I c) : I (crawlFromAnchor d k n key c) := by
  unfold crawlFromAnchor
  split
  · exact hc
  · split
    · rename_i w1 hcl
      exact hI.halt _ Halt.fatal (hI.closest c key false w1 hc)
    · rename_i pch w1 hcl
      exact rangeLoop_keeps I _ (crawlPeer_keeps k hI n) _ _ (hI.closest c key true w1 hc)

theorem Crawl_keeps {d : DHT σ} (k : Chan σ) {I : Crawler σ → Prop} (hI : Stable d I) :
    ∀ (rounds : List Round) (c : Crawler σ), I c → I (Crawl d k rounds c) := by
  intro rounds
  induction rounds with
  | nil =>
    intro c hc
    unfold Crawl
    split
    · exact hc
    · exact hI.halt c Halt.depth hc
  | cons r rs ih =>
    intro c hc
    unfold Crawl
    split
    · exact hc
    · split
      · exact hI.halt c Halt.fatal hc
      · rename_i str hstr
        have h1 := crawlFromAnchor_keeps k hI r.budget str c hc
        simp only
        split
        · exact h1
        · exact ih _ h1

theorem exec_keeps {d : DHT σ} (k : Chan σ) {I : Crawler σ → Prop} (hI : Stable d I)
    (call : Call) (c : Crawler σ) (hc : I c) : I (call.exec d k c) := by
  cases call with
  | crawlPeer n p => exact crawlPeer_keeps k hI n p c hc
  | crawlFromAnchor n key => exact crawlFromAnchor_keeps k hI n key c hc
  | Crawl rounds => exact Crawl_keeps k hI rounds c hc

theorem execAll_keeps {d : DHT σ} (k : Chan σ) {I : Crawler σ → Prop} (hI : Stable d I) :
    ∀ (calls : List Call) (c : Crawler σ), I c → I (execAll d k calls c) := by
  intro calls
  induction calls with
  | nil => intro c hc; exact hc
  | cons call calls ih => intro c hc; exact ih _ (exec_keeps k hI call c hc)

/-- The registry contains a given set: kept by every state change. -/
theorem stable_superset (d : DHT σ) (P : Finset PeerID) :
    Stable d (fun c => P ⊆ c.peers) where
  halt := fun _ _ h => h
  closest := fun _ _ _ _ h => h
  missing := fun _ _ _ h => h
  found := fun c p _ _ _ _ h => h.trans (Finset.subset_insert p c.peers)
  waited := fun _ _ h => h
  neighbours := fun _ _ _ _ h => h

theorem tryConnect_peers (h : Host σ) (pi : PeerInfo) (c : Crawler σ) :
    (tryConnect h pi c).peers = c.peers := by
  unfold tryConnect
  split
  · rfl
  · rfl

theorem worker_peers (h : Host σ) :
    ∀ (sels : List Select) (c : Crawler σ), (worker h sels c).peers = c.peers := by
  intro sels
  induction sels with
  | nil => intro c; rfl
  | cons s rest ih =>
    intro c
    cases s with
    | recv pi => simp only [worker]; rw [ih, tryConnect_peers]
    | closed => rfl
    | done => rfl

end Invariants

/-- Claim C7 (registry monotonicity): whatever the DHT and the host answer, the registry after
`crawlPeer`, `crawlFromAnchor`, `Crawl`, `worker` or `tryConnect` contains the registry before
the operation; no identifier is removed. -/
theorem registry_monotone {σ : Type} (d : DHT σ) (k : Chan σ) (h : Host σ)
    (c : Crawler σ) :
    (∀ n p, c.peers ⊆ (crawlPeer d k n p c).peers) ∧
    (∀ n key, c.peers ⊆ (crawlFromAnchor d k n key c).peers) ∧
    (∀ rounds, c.peers ⊆ (Crawl d k rounds c).peers) ∧
    (∀ sels, c.peers ⊆ (worker h sels c).peers) ∧
    (∀ pi, c.peers ⊆ (tryConnect h pi c).peers) := by
  refine ⟨?_, ?_, ?_, ?_, ?_⟩
  · intro n p
    exact crawlPeer_keeps k (stable_superset d c.peers) n p c (Finset.Subset.refl _)
  · intro n key
    exact crawlFromAnchor_keeps k (stable_superset d c.peers) n key c (Finset.Subset.refl _)
  · intro rounds
    exact Crawl_keeps k (stable_superset d c.peers) rounds c (Finset.Subset.refl _)
  · intro sels
    rw [worker_peers]
  · intro pi
    rw [tryConnect_peers]

section Enqueue

variable {σ : Type}

/-- Every identifier sent is registered and no identifier was sent twice: kept by every state
change when `FindPeer p` answers with a `PeerInfo` for `p`. -/
theorem stable_sent_once (d : DHT σ)
    (hID : ∀ w p pi w1, d.FindPeer w p = (some pi, w1) → pi.ID = p) :
    Stable d (fun c => (c.work.map PeerInfo.ID).Nodup ∧ ∀ pi ∈ c.work, pi.ID ∈ c.peers) where
  halt := fun _ _ h => h
  closest := fun _ _ _ _ h => h
  missing := fun _ _ _ h => h
  waited := fun _ _ h => h
  neighbours := fun _ _ _ _ h => h
  found := by
    intro c p pi w hp hfind h
    obtain ⟨hnd, hreg⟩ := h
    have hpi : pi.ID = p := hID _ _ _ _ hfind
    refine ⟨?_, ?_⟩
    · simp only [List.map_append, List.map_cons, List.map_nil]
      rw [List.nodup_append]
      refine ⟨hnd, List.nodup_singleton _, ?_⟩
      intro a ha hb
      rw [List.mem_singleton] at hb
      obtain ⟨qi, hqi, rfl⟩ := List.mem_map.mp ha
      apply hp
      rw [← hpi, ← hb]
      exact hreg qi hqi
    · intro qi hqi
      simp only [List.mem_append, List.mem_singleton] at hqi
      rcases hqi with hqi | rfl
      · exact Finset.mem_insert_of_mem (hreg qi hqi)
      · rw [hpi]; exact Finset.mem_insert_self _ _

theorem resolved_append (tr tr2 : List Event) :
    resolved (tr ++ tr2) = resolved tr ++ resolved tr2 := by
  simp [resolved, List.filterMap_append]

theorem sent_append (tr tr2 : List Event) : sent (tr ++ tr2) = sent tr ++ sent tr2 := by
  simp [sent, List.filterMap_append]

theorem mem_resolved {tr : List Event} {p : PeerID} {pi : PeerInfo} :
    (p, pi) ∈ resolved tr ↔ Event.findPeer p (some pi) ∈ tr := by
  unfold resolved
  rw [List.mem_filterMap]
  constructor
  · rintro ⟨ev, hev, hres⟩
    cases ev with
    | findPeer q r =>
      cases r with
      | none => simp [Event.resolution] at hres
      | some qi =>
        simp only [Event.resolution, Option.some.injEq, Prod.mk.injEq] at hres
        obtain ⟨rfl, rfl⟩ := hres
        exact hev
    | getClosestPeers key ok => simp [Event.resolution] at hres
    | send qi => simp [Event.resolution] at hres
    | findPeersConnectedToPeer q ok => simp [Event.resolution] at hres
    | connect qi ok => simp [Event.resolution] at hres
  · intro h
    exact ⟨_, h, rfl⟩

theorem stable_booked (d : DHT σ) : Stable d (@Booked σ) where
  halt := fun _ _ h => h
  waited := fun _ _ h => h
  closest := by
    intro c key b w h
    simpa [Booked, resolved_append, sent_append, resolved, sent, Event.resolution,
      Event.sending] using h
  missing := by
    intro c p w h
    simpa [Booked, resolved_append, sent_append, resolved, sent, Event.resolution,
      Event.sending] using h
  neighbours := by
    intro c p b w h
    simpa [Booked, resolved_append, sent_append, resolved, sent, Event.resolution,
      Event.sending] using h
  found := by
    intro c p pi w hp _ h
    obtain ⟨hreg, hnd, hwork, hsent⟩ := h
    have e1 : resolved [Event.findPeer p (some pi), Event.send pi] = [(p, pi)] := rfl
    have e2 : sent [Event.findPeer p (some pi), Event.send pi] = [pi] := rfl
    refine ⟨?_, ?_, ?_, ?_⟩
    · intro q
      simp only [resolved_append, e1, List.map_append, List.map_cons, List.map_nil,
        List.mem_append, List.mem_singleton, Finset.mem_insert]
      rw [hreg q]
      tauto
    · simp only [resolved_append, e1, List.map_append, List.map_cons, List.map_nil]
      rw [List.nodup_append]
      refine ⟨hnd, List.nodup_singleton _, ?_⟩
      intro a ha hb
      rw [List.mem_singleton] at hb
      subst hb
      exact hp ((hreg a).mpr ha)
    · simp only [resolved_append, e1, List.map_append, List.map_cons, List.map_nil, hwork]
    · simp only [sent_append, e2, hsent]

theorem booked_new (w : σ) : Booked (NewCrawler w) := by
  refine ⟨?_, ?_, ?_, ?_⟩
  · intro p; simp [NewCrawler, resolved]
  · simp [NewCrawler, resolved]
  · simp [NewCrawler, resolved]
  · simp [NewCrawler, sent]

theorem booked_card {c : Crawler σ} (h : Booked c) : c.work.length = c.peers.card := by
  obtain ⟨hreg, hnd, hwork, _⟩ := h
  have hp : c.peers = ((resolved c.trace).map Prod.fst).toFinset := by
    ext p
    rw [hreg p, List.mem_toFinset]
  rw [hp, List.toFinset_card_of_nodup hnd, hwork, List.length_map, List.length_map]

end Enqueue

/-- Claim C1 (at-most-once enqueue): when `FindPeer p` only ever answers with a `PeerInfo`
whose `ID` is `p`, then after any sequence of calls of `crawlPeer`, `crawlFromAnchor` and
`Crawl` on the crawler made by `NewCrawler`, complete, cut short or blocked at a send, and
whatever else the DHT answers and the channel does, no identifier occurs twice among the values
put to the send on the work queue. -/
theorem enqueue_at_most_once {σ : Type} (d : DHT σ) (k : Chan σ)
    (hID : ∀ w p pi w1, d.FindPeer w p = (some pi, w1) → pi.ID = p)
    (calls : List Call) (w : σ) :
    ((execAll d k calls (NewCrawler w)).work.map PeerInfo.ID).Nodup :=
  (execAll_keeps k (stable_sent_once d hID) calls (NewCrawler w)
    ⟨List.nodup_nil, fun _ h => absurd h (List.not_mem_nil _)⟩).1

theorem enqueue_at_most_once_witness :
    (∀ w p pi w1, (s2.toDHT : DHT Unit).FindPeer w p = (some pi, w1) → pi.ID = p) ∧
    ((execAll s2.toDHT ready
        [Call.crawlFromAnchor 3 "k1", Call.crawlPeer 3 1,
          Call.Crawl [⟨some "k2", 3, false⟩, ⟨some "k3", 3, true⟩]]
        (NewCrawler ())).work.map PeerInfo.ID).Nodup ∧
    (execAll s2.toDHT ready
        [Call.crawlFromAnchor 3 "k1", Call.crawlPeer 3 1,
          Call.Crawl [⟨some "k2", 3, false⟩, ⟨some "k3", 3, true⟩]]
        (NewCrawler ())).work = [⟨0, [10]⟩, ⟨1, [11]⟩] :=
  have hID : ∀ w p pi w1, (s2.toDHT : DHT Unit).FindPeer w p = (some pi, w1) → pi.ID = p := by
    intro w p pi w1 h
    simp only [StaticDHT.toDHT, s2, Prod.mk.injEq] at h
    obtain ⟨h, _⟩ := h
    split at h
    · cases h; subst_vars; rfl
    · split at h
      · cases h; subst_vars; rfl
      · cases h
  ⟨hID, enqueue_at_most_once s2.toDHT ready hID _ (), by decide⟩

/-- Claim C10 (the registry is the set of enqueued peers): after any sequence of calls on the
crawler made by `NewCrawler`, whatever the DHT answers and the channel does, an identifier is
registered exactly when some `FindPeer` call for it succeeded; the values put to the send on
the work queue are the results of the successful `FindPeer` calls, in order; the number of
sends is the size of the registry; and an identifier whose `FindPeer` calls all failed is not
registered. When the calls have completed every send has completed; in a run that is blocked
at a send, that send is counted. -/
theorem registry_is_enqueued {σ : Type} (d : DHT σ) (k : Chan σ) (calls : List Call)
    (w : σ) :
    (∀ p, p ∈ (execAll d k calls (NewCrawler w)).peers ↔
      ∃ pi, Event.findPeer p (some pi) ∈ (execAll d k calls (NewCrawler w)).trace) ∧
    (execAll d k calls (NewCrawler w)).work =
      (resolved (execAll d k calls (NewCrawler w)).trace).map Prod.snd ∧
    sent (execAll d k calls (NewCrawler w)).trace = (execAll d k calls (NewCrawler w)).work ∧
    (execAll d k calls (NewCrawler w)).work.length = (execAll d k calls (NewCrawler w)).peers.card ∧
    (∀ p, (∀ r, Event.findPeer p r ∈ (execAll d k calls (NewCrawler w)).trace → r = none) →
      p ∉ (execAll d k calls (NewCrawler w)).peers) := by
  have hb : Booked (execAll d k calls (NewCrawler w)) :=
    execAll_keeps k (stable_booked d) calls (NewCrawler w) (booked_new w)
  have hmem : ∀ p, p ∈ (execAll d k calls (NewCrawler w)).peers ↔
      ∃ pi, Event.findPeer p (some pi) ∈ (execAll d k calls (NewCrawler w)).trace := by
    intro p
    rw [hb.1 p, List.mem_map]
    constructor
    · rintro ⟨⟨q, pi⟩, hmem, rfl⟩
      exact ⟨pi, mem_resolved.mp hmem⟩
    · rintro ⟨pi, hpi⟩
      exact ⟨(p, pi), mem_resolved.mpr hpi, rfl⟩
  refine ⟨hmem, hb.2.2.1, hb.2.2.2, booked_card hb, ?_⟩
  intro p hall hp
  obtain ⟨pi, hpi⟩ := (hmem p).mp hp
  exact absurd (hall _ hpi) (by simp)

theorem registry_is_enqueued_witness :
    (execAll flaky ready [Call.crawlPeer 1 0, Call.crawlPeer 1 1, Call.crawlFromAnchor 1 "k"]
      (NewCrawler 0)).peers = {0, 1} ∧
    (execAll flaky ready [Call.crawlPeer 1 0, Call.crawlPeer 1 1, Call.crawlFromAnchor 1 "k"]
      (NewCrawler 0)).work = [⟨1, [11]⟩, ⟨0, [10]⟩] ∧
    (execAll flaky ready [Call.crawlPeer 1 0, Call.crawlPeer 1 1, Call.crawlFromAnchor 1 "k"]
      (NewCrawler 0)).work.length =
    (execAll flaky ready [Call.crawlPeer 1 0, Call.crawlPeer 1 1, Call.crawlFromAnchor 1 "k"]
      (NewCrawler 0)).peers.card ∧
    (execAll thirtyThree.toDHT limited [Call.crawlFromAnchor 1 "k"] (NewCrawler 32)).halted =
      some Halt.blocked ∧
    (execAll thirtyThree.toDHT limited [Call.crawlFromAnchor 1 "k"] (NewCrawler 32)).work.length =
    (execAll thirtyThree.toDHT limited [Call.crawlFromAnchor 1 "k"] (NewCrawler 32)).peers.card :=
  ⟨by decide, by decide,
    (registry_is_enqueued flaky ready
      [Call.crawlPeer 1 0, Call.crawlPeer 1 1, Call.crawlFromAnchor 1 "k"] 0).2.2.2.1,
    by decide,
    (registry_is_enqueued thirtyThree.toDHT limited [Call.crawlFromAnchor 1 "k"] 32).2.2.2.1⟩

/-! ## The cases of `crawlPeer` -/

section Cases

variable {σ : Type}

theorem crawlPeer_halted (d : DHT σ) (k : Chan σ) (n : Nat) (p : PeerID) (c : Crawler σ)
    (hc : c.halted.isSome = true) : crawlPeer d k n p c = c := by
  cases n with
  | zero => unfold crawlPeer; rw [if_pos hc]
  | succ n => unfold crawlPeer; rw [if_pos hc]

theorem rangeLoop_halted (d : DHT σ) (k : Chan σ) (n : Nat) :
    ∀ (ps : List PeerID) (c : Crawler σ), c.halted.isSome = true →
      rangeLoop (crawlPeer d k n) ps c = c := by
  intro ps
  induction ps with
  | nil => intro c _; rfl
  | cons p ps ih =>
    intro c hc
    simp only [rangeLoop]
    rw [crawlPeer_halted d k n p c hc]
    exact ih c hc

theorem crawlPeer_known (d : DHT σ) (k : Chan σ) (n : Nat) (p : PeerID) (c : Crawler σ)
    (hp : p ∈ c.peers) : crawlPeer d k (n + 1) p c = c := by
  unfold crawlPeer
  split <;> rfl

theorem crawlPeer_missing (d : DHT σ) (k : Chan σ) (n : Nat) (p : PeerID) (c : Crawler σ)
    (w1 : σ)
    (hc : c.halted = none) (hp : p ∉ c.peers) (hf : d.FindPeer c.world p = (none, w1)) :
    crawlPeer d k (n + 1) p c =
      { c with world := w1, trace := c.trace ++ [Event.findPeer p none] } := by
  unfold crawlPeer
  simp only [hc, Option.isSome_none, Bool.false_eq_true, if_false, hp, hf]

theorem crawlPeer_blocked (d : DHT σ) (k : Chan σ) (n : Nat) (p : PeerID) (c : Crawler σ)
    (pi : PeerInfo) (w1 w2 : σ)
    (hc : c.halted = none) (hp : p ∉ c.peers) (hf : d.FindPeer c.world p = (some pi, w1))
    (hs : k.Send w1 pi = (false, w2)) :
    crawlPeer d k (n + 1) p c =
      { c with
        peers := insert p c.peers
        work := c.work ++ [pi]
        world := w2
        trace := c.trace ++ [Event.findPeer p (some pi), Event.send pi]
        halted := some Halt.blocked } := by
  unfold crawlPeer
  simp [hc, hp, hf, hs]

theorem crawlPeer_isolated (d : DHT σ) (k : Chan σ) (n : Nat) (p : PeerID) (c : Crawler σ)
    (pi : PeerInfo) (w1 w2 w3 : σ)
    (hc : c.halted = none) (hp : p ∉ c.peers) (hf : d.FindPeer c.world p = (some pi, w1))
    (hs : k.Send w1 pi = (true, w2))
    (hn : d.FindPeersConnectedToPeer w2 p = (none, w3)) :
    crawlPeer d k (n + 1) p c =
      { c with
        peers := insert p c.peers
        work := c.work ++ [pi]
        world := w3
        trace := c.trace ++ [Event.findPeer p (some pi), Event.send pi,
          Event.findPeersConnectedToPeer p false] } := by
  unfold crawlPeer
  simp [hc, hp, hf, hs, hn]

theorem crawlPeer_expand (d : DHT σ) (k : Chan σ) (n : Nat) (p : PeerID) (c : Crawler σ)
    (pi : PeerInfo) (pch : List PeerInfo) (w1 w2 w3 : σ)
    (hc : c.halted = none) (hp : p ∉ c.peers) (hf : d.FindPeer c.world p = (some pi, w1))
    (hs : k.Send w1 pi = (true, w2))
    (hn : d.FindPeersConnectedToPeer w2 p = (some pch, w3)) :
    crawlPeer d k (n + 1) p c =
      rangeLoop (crawlPeer d k n) (pch.map PeerInfo.ID)
        { c with
          peers := insert p c.peers
          work := c.work ++ [pi]
          world := w3
          trace := c.trace ++ [Event.findPeer p (some pi), Event.send pi,
            Event.findPeersConnectedToPeer p true] } := by
  unfold crawlPeer
  simp [hc, hp, hf, hs, hn]

theorem crawlPeer_registers (d : DHT σ) (k : Chan σ) (n : Nat) (p : PeerID) (c : Crawler σ)
    (pi : PeerInfo) (w1 : σ)
    (hc : c.halted = none) (hf : d.FindPeer c.world p = (some pi, w1)) :
    p ∈ (crawlPeer d k (n + 1) p c).peers := by
  by_cases hp : p ∈ c.peers
  · rw [crawlPeer_known d k n p c hp]; exact hp
  · rcases hs : k.Send w1 pi with ⟨b, w2⟩
    cases b with
    | false =>
      rw [crawlPeer_blocked d k n p c pi w1 w2 hc hp hf hs]
      exact Finset.mem_insert_self _ _
    | true =>
      rcases hn : d.FindPeersConnectedToPeer w2 p with ⟨r, w3⟩
      cases r with
      | none =>
        rw [crawlPeer_isolated d k n p c pi w1 w2 w3 hc hp hf hs hn]
        exact Finset.mem_insert_self _ _
      | some pch =>
        rw [crawlPeer_expand d k n p c pi pch w1 w2 w3 hc hp hf hs hn]
        exact rangeLoop_keeps (fun c1 => {p} ⊆ c1.peers) _
          (crawlPeer_keeps k (stable_superset d {p}) n) _ _
          (by simp) (Finset.mem_singleton_self p)

end Cases

/-- Claim C3, amended (resolve failure leaves the peer unregistered): when `p` is not in the
registry and `FindPeer p` fails, `crawlPeer p` returns with the registry unchanged, so `p` is
still not a member; nothing has been sent on the work queue and the only DHT call made is the
failed `FindPeer p`, so `FindPeersConnectedToPeer p` has not been called. -/
theorem resolve_failure_leaves_unregistered {σ : Type} (d : DHT σ) (k : Chan σ) (n : Nat)
    (p : PeerID) (c : Crawler σ) (w1 : σ)
    (hc : c.halted = none) (hp : p ∉ c.peers) (hf : d.FindPeer c.world p = (none, w1)) :
    (crawlPeer d k (n + 1) p c).halted = none ∧
    (crawlPeer d k (n + 1) p c).peers = c.peers ∧
    p ∉ (crawlPeer d k (n + 1) p c).peers ∧
    (crawlPeer d k (n + 1) p c).work = c.work ∧
    (crawlPeer d k (n + 1) p c).trace = c.trace ++ [Event.findPeer p none] := by
  rw [crawlPeer_missing d k n p c w1 hc hp hf]
  exact ⟨hc, rfl, hp, rfl, rfl⟩

theorem resolve_failure_leaves_unregistered_witness :
    (crawlPeer s3.toDHT ready 1 0 (NewCrawler ())).halted = none ∧
    (crawlPeer s3.toDHT ready 1 0 (NewCrawler ())).peers = (NewCrawler ()).peers ∧
    (0 : PeerID) ∉ (crawlPeer s3.toDHT ready 1 0 (NewCrawler ())).peers ∧
    (crawlPeer s3.toDHT ready 1 0 (NewCrawler ())).work = (NewCrawler ()).work ∧
    (crawlPeer s3.toDHT ready 1 0 (NewCrawler ())).trace =
      (NewCrawler ()).trace ++ [Event.findPeer 0 none] :=
  resolve_failure_leaves_unregistered s3.toDHT ready 0 0 (NewCrawler ()) () rfl (by decide) rfl

/-- Claim C3 as stated fails: on scenario S3 (`FindPeer A` fails, `A` not registered) the
walk returns with `A` absent from the registry. -/
theorem resolve_failure_registered_counterexample :
    ¬ (∀ (d : DHT Unit) (k : Chan Unit) (n : Nat) (p : PeerID) (c : Crawler Unit) (w1 : Unit),
        c.halted = none → p ∉ c.peers → d.FindPeer c.world p = (none, w1) →
        p ∈ (crawlPeer d k (n + 1) p c).peers ∧
        (crawlPeer d k (n + 1) p c).work = c.work ∧
        Event.findPeersConnectedToPeer p true ∉ (crawlPeer d k (n + 1) p c).trace ∧
        Event.findPeersConnectedToPeer p false ∉ (crawlPeer d k (n + 1) p c).trace) := by
  intro h
  have h1 := (h s3.toDHT ready 0 0 (NewCrawler ()) () rfl (by decide) rfl).1
  revert h1
  decide

/-- Claim C4, amended (walks of a registered peer are no-ops): once a call `crawlPeer p` has
returned with `p` in the registry, which is the case whenever its `FindPeer p` succeeded,
every later call `crawlPeer p` of the run, after any further calls on the crawler, leaves the
whole crawler state unchanged: no `FindPeer` call, no `FindPeersConnectedToPeer` call, nothing
sent, same registry. -/
theorem registered_walk_is_noop {σ : Type} (d : DHT σ) (k : Chan σ) (n : Nat) (p : PeerID)
    (c : Crawler σ) (calls : List Call) (m : Nat)
    (hp : p ∈ (crawlPeer d k n p c).peers) :
    crawlPeer d k (m + 1) p (execAll d k calls (crawlPeer d k n p c)) =
        execAll d k calls (crawlPeer d k n p c) ∧
    (∀ pi w1 j, c.halted = none → d.FindPeer c.world p = (some pi, w1) →
      p ∈ (crawlPeer d k (j + 1) p c).peers) := by
  refine ⟨?_, fun pi w1 j hc hf => crawlPeer_registers d k j p c pi w1 hc hf⟩
  apply crawlPeer_known
  exact execAll_keeps k (stable_superset d {p}) calls _ (by simpa using hp)
    (Finset.mem_singleton_self p)

theorem registered_walk_is_noop_witness :
    (0 : PeerID) ∈ (crawlPeer s2.toDHT ready 3 0 (NewCrawler ())).peers ∧
    crawlPeer s2.toDHT ready 1 0
        (execAll s2.toDHT ready [Call.crawlFromAnchor 3 "k"]
          (crawlPeer s2.toDHT ready 3 0 (NewCrawler ()))) =
      execAll s2.toDHT ready [Call.crawlFromAnchor 3 "k"]
        (crawlPeer s2.toDHT ready 3 0 (NewCrawler ())) ∧
    (s2.toDHT : DHT Unit).FindPeer (NewCrawler ()).world 0 = (some ⟨0, [10]⟩, ()) ∧
    (0 : PeerID) ∈ (crawlPeer s2.toDHT ready (2 + 1) 0 (NewCrawler ())).peers :=
  have h := registered_walk_is_noop s2.toDHT ready 3 0 (NewCrawler ())
    [Call.crawlFromAnchor 3 "k"] 0 (by decide)
  ⟨by decide, h.1, rfl, h.2 ⟨0, [10]⟩ () 2 rfl rfl⟩

/-- Claim C4 as stated fails: on the DHT `flaky` the first `crawlPeer 0` returns after a
failed `FindPeer 0`; the next `crawlPeer 0` calls `FindPeer 0` again, sends its result and
registers `0`. -/
theorem repeated_walk_noop_counterexample :
    ¬ (∀ (d : DHT Nat) (k : Chan Nat) (n m : Nat) (p : PeerID) (c : Crawler Nat),
        (crawlPeer d k (n + 1) p c).halted = none →
        (crawlPeer d k (m + 1) p (crawlPeer d k (n + 1) p c)).trace =
            (crawlPeer d k (n + 1) p c).trace ∧
        (crawlPeer d k (m + 1) p (crawlPeer d k (n + 1) p c)).work =
            (crawlPeer d k (n + 1) p c).work ∧
        (crawlPeer d k (m + 1) p (crawlPeer d k (n + 1) p c)).peers =
            (crawlPeer d k (n + 1) p c).peers) := by
  intro h
  have h1 := (h flaky ready 0 0 0 (NewCrawler 0) (by decide)).2.1
  revert h1
  decide

/-- Claim C6 (a failing neighbour query is absorbed): when `p` is not in the registry,
`FindPeer p` succeeds with `pi` and `FindPeersConnectedToPeer p`, which is called once the
send of `pi` has completed, fails, `crawlPeer p` returns normally, having registered `p`, sent
exactly `pi` and made exactly these two DHT calls, with no recursive call (the result does not
depend on the recursion budget and is the same with budget 1); the loop of the caller goes on
with the next peer of its sequence. -/
theorem neighbour_failure_absorbed {σ : Type} (d : DHT σ) (k : Chan σ) (n : Nat)
    (p : PeerID) (c : Crawler σ) (pi : PeerInfo) (w1 w2 w3 : σ)
    (hc : c.halted = none) (hp : p ∉ c.peers) (hf : d.FindPeer c.world p = (some pi, w1))
    (hs : k.Send w1 pi = (true, w2))
    (hn : d.FindPeersConnectedToPeer w2 p = (none, w3)) :
    crawlPeer d k (n + 1) p c =
      { peers := insert p c.peers
        work := c.work ++ [pi]
        world := w3
        trace := c.trace ++ [Event.findPeer p (some pi), Event.send pi,
          Event.findPeersConnectedToPeer p false]
        halted := none } ∧
    crawlPeer d k (n + 1) p c = crawlPeer d k 1 p c ∧
    (∀ rest, rangeLoop (crawlPeer d k (n + 1)) (p :: rest) c =
      rangeLoop (crawlPeer d k (n + 1)) rest
        { peers := insert p c.peers
          work := c.work ++ [pi]
          world := w3
          trace := c.trace ++ [Event.findPeer p (some pi), Event.send pi,
            Event.findPeersConnectedToPeer p false]
          halted := none }) := by
  have h1 := crawlPeer_isolated d k n p c pi w1 w2 w3 hc hp hf hs hn
  have h0 := crawlPeer_isolated d k 0 p c pi w1 w2 w3 hc hp hf hs hn
  rw [hc] at h1 h0
  refine ⟨h1, by rw [h1, h0], ?_⟩
  intro rest
  simp only [rangeLoop]
  rw [h1]

theorem neighbour_failure_absorbed_witness :
    (crawlPeer noNeighbours.toDHT limited 4 0 (NewCrawler 1)).work = [⟨0, [10]⟩] ∧
    (crawlPeer noNeighbours.toDHT limited 4 0 (NewCrawler 1)).peers = {0} ∧
    (crawlPeer noNeighbours.toDHT limited 4 0 (NewCrawler 1)).halted = none ∧
    (rangeLoop (crawlPeer noNeighbours.toDHT ready 4) [0, 1] (NewCrawler ())).work =
      [⟨0, [10]⟩, ⟨1, [11]⟩] :=
  have h := neighbour_failure_absorbed noNeighbours.toDHT limited 3 0 (NewCrawler 1)
    ⟨0, [10]⟩ 1 0 0 rfl (by decide) rfl rfl rfl
  ⟨by rw [h.1]; rfl, by rw [h.1]; rfl, by rw [h.1], by decide⟩

/-! ## Termination -/

section Termination

variable {σ : Type}

theorem settled_of_halted (k : Chan σ) (c : Crawler σ) (h : Settled k c)
    (hs : c.halted.isSome = true) (d : DHT σ) (n : Nat) (p : PeerID) :
    Settled k (crawlPeer d k n p c) := by
  rw [crawlPeer_halted d k n p c hs]
  exact h

theorem rangeLoop_settles (d : DHT σ) (k : Chan σ) (U : Finset PeerID) (n : Nat)
    (hbody : ∀ (p : PeerID) (c : Crawler σ), c.halted = none → p ∈ U →
      (U \ c.peers).card < n → Settled k (crawlPeer d k n p c)) :
    ∀ (ps : List PeerID) (c : Crawler σ), Settled k c → (∀ q ∈ ps, q ∈ U) →
      (U \ c.peers).card < n → Settled k (rangeLoop (crawlPeer d k n) ps c) := by
  intro ps
  induction ps with
  | nil => intro c hc _ _; exact hc
  | cons p ps ih =>
    intro c hc hps hcard
    simp only [rangeLoop]
    apply ih
    · cases hh : c.halted with
      | none => exact hbody p c hh (hps p (List.mem_cons_self _ _)) hcard
      | some x => exact settled_of_halted k c hc (by rw [hh]; rfl) d n p
    · intro q hq
      exact hps q (List.mem_cons_of_mem _ hq)
    · have hsub : c.peers ⊆ (crawlPeer d k n p c).peers :=
        crawlPeer_keeps k (stable_superset d c.peers) n p c (Finset.Subset.refl _)
      exact lt_of_le_of_lt
        (Finset.card_le_card (Finset.sdiff_subset_sdiff (Finset.Subset.refl U) hsub)) hcard

theorem crawlPeer_settles_in (d : DHT σ) (k : Chan σ) (U : Finset PeerID)
    (hU : ∀ w p l w1, d.FindPeersConnectedToPeer w p = (some l, w1) → ∀ pi ∈ l, pi.ID ∈ U) :
    ∀ (n : Nat) (p : PeerID) (c : Crawler σ), c.halted = none → p ∈ U →
      (U \ c.peers).card < n → Settled k (crawlPeer d k n p c) := by
  intro n
  induction n with
  | zero => intro p c _ _ h; exact absurd h (Nat.not_lt_zero _)
  | succ n ih =>
    intro p c hc hpU hcard
    by_cases hp : p ∈ c.peers
    · rw [crawlPeer_known d k n p c hp]; exact Or.inl hc
    · rcases hf : d.FindPeer c.world p with ⟨r, w1⟩
      cases r with
      | none => rw [crawlPeer_missing d k n p c w1 hc hp hf]; exact Or.inl hc
      | some pi =>
        rcases hs : k.Send w1 pi with ⟨b, w2⟩
        cases b with
        | false =>
          rw [crawlPeer_blocked d k n p c pi w1 w2 hc hp hf hs]
          exact Or.inr ⟨rfl, w1, pi, w2, hs⟩
        | true =>
          rcases hn : d.FindPeersConnectedToPeer w2 p with ⟨r2, w3⟩
          cases r2 with
          | none =>
            rw [crawlPeer_isolated d k n p c pi w1 w2 w3 hc hp hf hs hn]; exact Or.inl hc
          | some pch =>
            rw [crawlPeer_expand d k n p c pi pch w1 w2 w3 hc hp hf hs hn]
            apply rangeLoop_settles d k U n ih
            · exact Or.inl hc
            · intro q hq
              obtain ⟨qi, hqi, rfl⟩ := List.mem_map.mp hq
              exact hU _ _ _ _ hn qi hqi
            · have hlt : (U \ insert p c.peers).card < (U \ c.peers).card := by
                apply Finset.card_lt_card
                rw [Finset.ssubset_iff_of_subset
                  (Finset.sdiff_subset_sdiff (Finset.Subset.refl U)
                    (Finset.subset_insert p _))]
                exact ⟨p, Finset.mem_sdiff.mpr ⟨hpU, hp⟩, by simp⟩
              show (U \ insert p c.peers).card < n
              omega

/-- No infinite recursion: when every identifier in a neighbour sequence answered by the DHT
lies in a finite set `U`, a walk with a budget of `U.card + 2` or more never runs out of
budget, from any registry and whatever the DHT answers: it returns, or it stands at a send that
the channel refuses. -/
theorem crawlPeer_settles (d : DHT σ) (k : Chan σ) (U : Finset PeerID)
    (hU : ∀ w p l w1, d.FindPeersConnectedToPeer w p = (some l, w1) → ∀ pi ∈ l, pi.ID ∈ U)
    (n : Nat) (p : PeerID) (c : Crawler σ) (hc : c.halted = none) (hn : U.card + 2 ≤ n) :
    Settled k (crawlPeer d k n p c) := by
  obtain ⟨m, rfl⟩ : ∃ m, n = m + 1 := ⟨n - 1, by omega⟩
  have hcard : (U \ c.peers).card ≤ U.card := Finset.card_le_card Finset.sdiff_subset
  by_cases hp : p ∈ c.peers
  · rw [crawlPeer_known d k m p c hp]; exact Or.inl hc
  · rcases hf : d.FindPeer c.world p with ⟨r, w1⟩
    cases r with
    | none => rw [crawlPeer_missing d k m p c w1 hc hp hf]; exact Or.inl hc
    | some pi =>
      rcases hs : k.Send w1 pi with ⟨b, w2⟩
      cases b with
      | false =>
        rw [crawlPeer_blocked d k m p c pi w1 w2 hc hp hf hs]
        exact Or.inr ⟨rfl, w1, pi, w2, hs⟩
      | true =>
        rcases hn2 : d.FindPeersConnectedToPeer w2 p with ⟨r2, w3⟩
        cases r2 with
        | none =>
          rw [crawlPeer_isolated d k m p c pi w1 w2 w3 hc hp hf hs hn2]; exact Or.inl hc
        | some pch =>
          rw [crawlPeer_expand d k m p c pi pch w1 w2 w3 hc hp hf hs hn2]
          apply rangeLoop_settles d k U m (crawlPeer_settles_in d k U hU m)
          · exact Or.inl hc
          · intro q hq
            obtain ⟨qi, hqi, rfl⟩ := List.mem_map.mp hq
            exact hU _ _ _ _ hn2 qi hqi
          · have hle : (U \ insert p c.peers).card ≤ (U \ c.peers).card :=
              Finset.card_le_card
                (Finset.sdiff_subset_sdiff (Finset.Subset.refl U) (Finset.subset_insert p _))
            show (U \ insert p c.peers).card < m
            omega

/-- The walk returns when, moreover, the channel refuses no send. -/
theorem crawlPeer_returns (d : DHT σ) (k : Chan σ) (U : Finset PeerID)
    (hU : ∀ w p l w1, d.FindPeersConnectedToPeer w p = (some l, w1) → ∀ pi ∈ l, pi.ID ∈ U)
    (hk : ∀ w pi, (k.Send w pi).1 = true)
    (n : Nat) (p : PeerID) (c : Crawler σ) (hc : c.halted = none) (hn : U.card + 2 ≤ n) :
    (crawlPeer d k n p c).halted = none := by
  rcases crawlPeer_settles d k U hU n p c hc hn with h | ⟨_, w, pi, w2, hs⟩
  · exact h
  · have := hk w pi
    rw [hs] at this
    cases this

end Termination

/-! ## The crawl of a static DHT is the reference traversal -/

theorem outcome_halted (c : Crawler Unit) (hc : c.halted.isSome = true) : outcome c = none := by
  unfold outcome
  cases h : c.halted with
  | none => rw [h] at hc; cases hc
  | some x => simp

theorem foldlM_dfsVisit (g : StaticDHT) (n : Nat)
    (hbody : ∀ (p : PeerID) (c : Crawler Unit), c.halted = none →
      dfsVisit g n p (c.peers, c.work) = outcome (crawlPeer g.toDHT ready n p c)) :
    ∀ (ps : List PeerID) (c : Crawler Unit), c.halted = none →
      ps.foldlM (fun acc q => dfsVisit g n q acc) (c.peers, c.work) =
        outcome (rangeLoop (crawlPeer g.toDHT ready n) ps c) := by
  intro ps
  induction ps with
  | nil =>
    intro c hc
    simp [rangeLoop, outcome, hc]
  | cons p ps ih =>
    intro c hc
    simp only [List.foldlM_cons, rangeLoop]
    rw [hbody p c hc]
    cases h : (crawlPeer g.toDHT ready n p c).halted with
    | none =>
      have e : outcome (crawlPeer g.toDHT ready n p c) =
          some ((crawlPeer g.toDHT ready n p c).peers, (crawlPeer g.toDHT ready n p c).work) := by
        simp [outcome, h]
      rw [e]
      exact ih _ h
    | some x =>
      have hs : (crawlPeer g.toDHT ready n p c).halted.isSome = true := by rw [h]; rfl
      rw [rangeLoop_halted g.toDHT ready n ps _ hs, outcome_halted _ hs]
      rfl

theorem dfsVisit_crawlPeer (g : StaticDHT) :
    ∀ (n : Nat) (p : PeerID) (c : Crawler Unit), c.halted = none →
      dfsVisit g n p (c.peers, c.work) = outcome (crawlPeer g.toDHT ready n p c) := by
  intro n
  induction n with
  | zero =>
    intro p c hc
    simp [dfsVisit, crawlPeer, outcome, hc]
  | succ n ih =>
    intro p c hc
    by_cases hp : p ∈ c.peers
    · rw [crawlPeer_known g.toDHT ready n p c hp]
      simp [dfsVisit, outcome, hc, hp]
    · cases hf : g.find p with
      | none =>
        rw [crawlPeer_missing g.toDHT ready n p c () hc hp (by simp [StaticDHT.toDHT, hf])]
        simp [dfsVisit, outcome, hc, hp, hf]
      | some pi =>
        cases hn : g.connected p with
        | none =>
          rw [crawlPeer_isolated g.toDHT ready n p c pi () () () hc hp
            (by simp [StaticDHT.toDHT, hf]) rfl (by simp [StaticDHT.toDHT, hn])]
          simp [dfsVisit, outcome, hc, hp, hf, hn]
        | some ns =>
          rw [crawlPeer_expand g.toDHT ready n p c pi ns () () () hc hp
            (by simp [StaticDHT.toDHT, hf]) rfl (by simp [StaticDHT.toDHT, hn])]
          have hloop := foldlM_dfsVisit g n ih (ns.map PeerInfo.ID)
            { c with
              peers := insert p c.peers
              work := c.work ++ [pi]
              world := ()
              trace := c.trace ++ [Event.findPeer p (some pi), Event.send pi,
                Event.findPeersConnectedToPeer p true] } hc
          rw [← hloop]
          simp [dfsVisit, hp, hf, hn]

theorem foldlM_dfsVisit_of_return (g : StaticDHT) (k : Chan Unit) (n : Nat)
    (hbody : ∀ (p : PeerID) (c : Crawler Unit), c.halted = none →
      (crawlPeer g.toDHT k n p c).halted = none →
      dfsVisit g n p (c.peers, c.work) =
        some ((crawlPeer g.toDHT k n p c).peers, (crawlPeer g.toDHT k n p c).work)) :
    ∀ (ps : List PeerID) (c : Crawler Unit), c.halted = none →
      (rangeLoop (crawlPeer g.toDHT k n) ps c).halted = none →
      ps.foldlM (fun acc q => dfsVisit g n q acc) (c.peers, c.work) =
        some ((rangeLoop (crawlPeer g.toDHT k n) ps c).peers,
          (rangeLoop (crawlPeer g.toDHT k n) ps c).work) := by
  intro ps
  induction ps with
  | nil =>
    intro c _ _
    simp [rangeLoop]
  | cons p ps ih =>
    intro c hc hret
    simp only [rangeLoop] at hret
    simp only [List.foldlM_cons, rangeLoop]
    cases h : (crawlPeer g.toDHT k n p c).halted with
    | none =>
      rw [hbody p c hc h]
      exact ih _ h hret
    | some x =>
      have hs : (crawlPeer g.toDHT k n p c).halted.isSome = true := by rw [h]; rfl
      rw [rangeLoop_halted g.toDHT k n ps _ hs, h] at hret
      cases hret

theorem dfsVisit_of_return (g : StaticDHT) (k : Chan Unit) :
    ∀ (n : Nat) (p : PeerID) (c : Crawler Unit), c.halted = none →
      (crawlPeer g.toDHT k n p c).halted = none →
      dfsVisit g n p (c.peers, c.work) =
        some ((crawlPeer g.toDHT k n p c).peers, (crawlPeer g.toDHT k n p c).work) := by
  intro n
  induction n with
  | zero =>
    intro p c hc hret
    simp [crawlPeer, hc] at hret
  | succ n ih =>
    intro p c hc hret
    by_cases hp : p ∈ c.peers
    · rw [crawlPeer_known g.toDHT k n p c hp]
      simp [dfsVisit, hp]
    · cases hf : g.find p with
      | none =>
        rw [crawlPeer_missing g.toDHT k n p c () hc hp (by simp [StaticDHT.toDHT, hf])]
        simp [dfsVisit, hp, hf]
      | some pi =>
        have hf2 : (g.toDHT : DHT Unit).FindPeer c.world p = (some pi, ()) := by
          simp [StaticDHT.toDHT, hf]
        rcases hs : k.Send () pi with ⟨b, w2⟩
        cases b with
        | false =>
          rw [crawlPeer_blocked g.toDHT k n p c pi () w2 hc hp hf2 hs] at hret
          cases hret
        | true =>
          cases hn : g.connected p with
          | none =>
            rw [crawlPeer_isolated g.toDHT k n p c pi () w2 () hc hp hf2 hs
              (by simp [StaticDHT.toDHT, hn])]
            simp [dfsVisit, hp, hf, hn]
          | some ns =>
            have hx := crawlPeer_expand g.toDHT k n p c pi ns () w2 () hc hp hf2 hs
              (by simp [StaticDHT.toDHT, hn])
            rw [hx] at hret
            rw [hx]
            have hloop := foldlM_dfsVisit_of_return g k n ih (ns.map PeerInfo.ID)
              { c with
                peers := insert p c.peers
                work := c.work ++ [pi]
                world := ()
                trace := c.trace ++ [Event.findPeer p (some pi), Event.send pi,
                  Event.findPeersConnectedToPeer p true] } hc hret
            rw [← hloop]
            simp [dfsVisit, hp, hf, hn]

/-- Claim C2 (depth-first pre-order): for a static DHT and the empty registry of `NewCrawler`,
one round of `crawlFromAnchor` on a channel that takes every send returns exactly when the
reference depth-first pre-order traversal from the closest-peers list does, and then the values
sent and the registry are the sequence emitted and the set visited by the reference; on any
channel, a round that returns has sent that sequence; a peer whose neighbour query succeeds is
registered and sent before the walk of its neighbours starts; and on scenario S1 the round
sends exactly `FindPeer A` and ends with registry `{A}`. -/
theorem crawl_is_dfs_preorder (g : StaticDHT) (n : Nat) (key : String) (ps : List PeerID)
    (hps : g.closest key = some ps) :
    dfsPreorder g n ps =
      (if (crawlFromAnchor g.toDHT ready n key (NewCrawler ())).halted = none then
        some ((crawlFromAnchor g.toDHT ready n key (NewCrawler ())).peers,
          (crawlFromAnchor g.toDHT ready n key (NewCrawler ())).work)
      else none) ∧
    (∀ k : Chan Unit, (crawlFromAnchor g.toDHT k n key (NewCrawler ())).halted = none →
      dfsPreorder g n ps =
        some ((crawlFromAnchor g.toDHT k n key (NewCrawler ())).peers,
          (crawlFromAnchor g.toDHT k n key (NewCrawler ())).work)) ∧
    (∀ (p : PeerID) (c : Crawler Unit) (pi : PeerInfo) (ns : List PeerInfo),
      c.halted = none → p ∉ c.peers → g.find p = some pi → g.connected p = some ns →
      crawlPeer g.toDHT ready (n + 1) p c =
        rangeLoop (crawlPeer g.toDHT ready n) (ns.map PeerInfo.ID)
          { c with
            peers := insert p c.peers
            work := c.work ++ [pi]
            trace := c.trace ++ [Event.findPeer p (some pi), Event.send pi,
              Event.findPeersConnectedToPeer p true] }) ∧
    (s1.find 0 = some ⟨0, [1]⟩ ∧
      (crawlFromAnchor s1.toDHT ready 1 "anchor" (NewCrawler ())).halted = none ∧
      (crawlFromAnchor s1.toDHT ready 1 "anchor" (NewCrawler ())).work = [⟨0, [1]⟩] ∧
      (crawlFromAnchor s1.toDHT ready 1 "anchor" (NewCrawler ())).peers = {0}) := by
  refine ⟨?_, ?_, ?_, by decide⟩
  · have e : crawlFromAnchor g.toDHT ready n key (NewCrawler ()) =
        rangeLoop (crawlPeer g.toDHT ready n) ps
          { NewCrawler () with trace := [Event.getClosestPeers key true] } := by
      unfold crawlFromAnchor
      simp [NewCrawler, StaticDHT.toDHT, hps]
    rw [e]
    exact foldlM_dfsVisit g n (dfsVisit_crawlPeer g n) ps
      { NewCrawler () with trace := [Event.getClosestPeers key true] } rfl
  · intro k hret
    have e : crawlFromAnchor g.toDHT k n key (NewCrawler ()) =
        rangeLoop (crawlPeer g.toDHT k n) ps
          { NewCrawler () with trace := [Event.getClosestPeers key true] } := by
      unfold crawlFromAnchor
      simp [NewCrawler, StaticDHT.toDHT, hps]
    rw [e] at hret
    rw [e]
    exact foldlM_dfsVisit_of_return g k n (dfsVisit_of_return g k n) ps
      { NewCrawler () with trace := [Event.getClosestPeers key true] } rfl hret
  · intro p c pi ns hc hp hf hn
    exact crawlPeer_expand g.toDHT ready n p c pi ns () () () hc hp
      (by simp [StaticDHT.toDHT, hf]) rfl (by simp [StaticDHT.toDHT, hn])

theorem crawl_is_dfs_preorder_witness :
    s2.closest "anchor" = some [0] ∧
    (crawlFromAnchor s2.toDHT ready 3 "anchor" (NewCrawler ())).halted = none ∧
    dfsPreorder s2 3 [0] =
      some ((crawlFromAnchor s2.toDHT ready 3 "anchor" (NewCrawler ())).peers,
        (crawlFromAnchor s2.toDHT ready 3 "anchor" (NewCrawler ())).work) ∧
    (crawlFromAnchor s2.toDHT ready 3 "anchor" (NewCrawler ())).work = [⟨0, [10]⟩, ⟨1, [11]⟩] ∧
    crawlPeer s2.toDHT ready (3 + 1) 0 (NewCrawler ()) =
      rangeLoop (crawlPeer s2.toDHT ready 3) [1]
        { NewCrawler () with
          peers := {0}
          work := [⟨0, [10]⟩]
          trace := [Event.findPeer 0 (some ⟨0, [10]⟩), Event.send ⟨0, [10]⟩,
            Event.findPeersConnectedToPeer 0 true] } :=
  have h := crawl_is_dfs_preorder s2 3 "anchor" [0] rfl
  ⟨rfl, by decide, by rw [h.1]; exact if_pos (by decide), by decide,
    h.2.2.1 0 (NewCrawler ()) ⟨0, [10]⟩ [⟨1, [11]⟩] rfl (by decide) rfl rfl⟩

/-! ## The buffered channel and the worker pool -/

/-- The buffer never holds more than `WORKERS` values and there are `WORKERS` workers: kept
by every move. -/
theorem step_bounded (a : Action) (s s1 : System) (h : step a s = some s1)
    (hq : s.queue.length ≤ WORKERS) (hw : s.workers.length = WORKERS) :
    s1.queue.length ≤ WORKERS ∧ s1.workers.length = WORKERS := by
  cases a with
  | cancel =>
    simp only [step, Option.some.injEq] at h
    subst h
    exact ⟨hq, hw⟩
  | reachSend pi =>
    simp only [step] at h
    split at h
    · cases h; exact ⟨hq, hw⟩
    · cases h
  | completeSend =>
    simp only [step] at h
    split at h
    · split at h
      · rename_i hlt
        cases h
        refine ⟨?_, hw⟩
        simp only [List.length_append, List.length_singleton]
        omega
      · cases h
    · cases h
  | crawlReturn =>
    simp only [step] at h
    split at h
    · split at h
      · cases h; exact ⟨hq, hw⟩
      · cases h
    · cases h
  | receive i =>
    simp only [step] at h
    split at h
    · rename_i pi rest _ hqueue
      cases h
      refine ⟨?_, ?_⟩
      · have : s.queue.length = rest.length + 1 := by rw [hqueue]; rfl
        show rest.length ≤ WORKERS
        omega
      · simpa using hw
    · cases h
  | connectReturn i =>
    simp only [step] at h
    split at h
    · cases h
      exact ⟨hq, by simpa using hw⟩
    · cases h
  | workerReturn i =>
    simp only [step] at h
    split at h
    · split at h
      · cases h
        exact ⟨hq, by simpa using hw⟩
      · cases h
    · cases h

theorem run_bounded :
    ∀ (as : List Action) (s s1 : System), run as s = some s1 →
      s.queue.length ≤ WORKERS → s.workers.length = WORKERS →
      s1.queue.length ≤ WORKERS ∧ s1.workers.length = WORKERS := by
  intro as
  induction as with
  | nil =>
    intro s s1 h hq hw
    simp only [run, Option.some.injEq] at h
    subst h
    exact ⟨hq, hw⟩
  | cons a as ih =>
    intro s s1 h hq hw
    simp only [run] at h
    split at h
    · cases h
    · rename_i s2 hstep
      obtain ⟨hq2, hw2⟩ := step_bounded a s s2 hstep hq hw
      exact ih s2 s1 h hq2 hw2

/-- Claim C9 (bounded in-flight dial intents): in every state the system of `NewCrawler` can
reach, under any schedule and whatever the discovery task sends, the work queue holds at most
`WORKERS = 16` values, at most `WORKERS` workers are inside `tryConnect`, and the two together
never exceed `2 * WORKERS`. -/
theorem in_flight_bounded (as : List Action) (s : System) (h : run as NewSystem = some s) :
    WORKERS = 16 ∧
    s.queue.length ≤ WORKERS ∧ s.dialing ≤ WORKERS ∧
    s.queue.length + s.dialing ≤ 2 * WORKERS := by
  obtain ⟨hq, hw⟩ := run_bounded as NewSystem s h (by decide) (by decide)
  have hd : s.dialing ≤ WORKERS := by
    unfold System.dialing
    rw [← hw]
    exact List.countP_le_length _
  exact ⟨rfl, hq, hd, by omega⟩

theorem in_flight_bounded_witness :
    run sampleSchedule NewSystem = some sampleState ∧
    sampleState.queue.length = 1 ∧ sampleState.dialing = 1 ∧
    (WORKERS = 16 ∧
      sampleState.queue.length ≤ WORKERS ∧ sampleState.dialing ≤ WORKERS ∧
      sampleState.queue.length + sampleState.dialing ≤ 2 * WORKERS) :=
  ⟨by decide, by decide, by decide,
    in_flight_bounded sampleSchedule sampleState (by decide)⟩

/-- In a state where the discovery task is at its send, the buffer is full and every worker
has returned, no move changes the state: only `cancel` is enabled, and the context is
cancelled already. -/
theorem step_blocked (a : Action) (s s1 : System) (pi : PeerInfo)
    (hd : s.discovery = DiscoveryPC.sending pi) (hq : s.queue.length = WORKERS)
    (hw : ∀ w ∈ s.workers, w = WorkerPC.returned) (hc : s.cancelled = true)
    (h : step a s = some s1) : s1 = s := by
  have hget : ∀ i w, s.workers.get? i = some w → w = WorkerPC.returned := by
    intro i w hi
    exact hw w (List.get?_mem hi)
  cases a with
  | cancel =>
    simp only [step, Option.some.injEq] at h
    subst h
    cases s
    simp only at hc
    subst hc
    rfl
  | reachSend qi => simp [step, hd] at h
  | completeSend => simp [step, hd, hq] at h
  | crawlReturn => simp [step, hd] at h
  | receive i =>
    simp only [step] at h
    split at h
    · rename_i hi _
      cases hget i _ hi
    · cases h
  | connectReturn i =>
    simp only [step] at h
    split at h
    · rename_i hi
      cases hget i _ hi
    · cases h
  | workerReturn i =>
    simp only [step] at h
    split at h
    · rename_i hi
      cases hget i _ hi
    · cases h

theorem run_blocked (pi : PeerInfo) :
    ∀ (as : List Action) (s s1 : System),
      s.discovery = DiscoveryPC.sending pi → s.queue.length = WORKERS →
      (∀ w ∈ s.workers, w = WorkerPC.returned) → s.cancelled = true →
      run as s = some s1 → s1 = s := by
  intro as
  induction as with
  | nil =>
    intro s s1 _ _ _ _ h
    simp only [run, Option.some.injEq] at h
    exact h.symm
  | cons a as ih =>
    intro s s1 hd hq hw hc h
    simp only [run] at h
    split at h
    · cases h
    · rename_i s2 hstep
      have e := step_blocked a s s2 pi hd hq hw hc hstep
      subst e
      exact ih s2 s1 hd hq hw hc h

/-- Claim C8 fails on the code (the send of `crawlPeer` ignores cancellation): the round on the
DHT `thirtyThree` has the schedule `blockedSchedule`, which ends with the context cancelled,
every worker returned, the buffer full and the discovery task at `c.work <- pi` for the 33rd
value it resolved; from that state on, under every further schedule, the discovery task is
still at that send, so `Crawl` does not return. -/
theorem send_blocked_after_cancel :
    thirtyThreeSends = (List.range 33).map (fun p => (⟨p, []⟩ : PeerInfo)) ∧
    ∃ s : System,
      run blockedSchedule NewSystem = some s ∧
      s.cancelled = true ∧
      (∀ w ∈ s.workers, w = WorkerPC.returned) ∧
      s.queue.length = WORKERS ∧
      s.discovery = DiscoveryPC.sending ⟨32, []⟩ ∧
      ∀ (as : List Action) (s1 : System), run as s = some s1 →
        s1.discovery = DiscoveryPC.sending ⟨32, []⟩ ∧ s1.discovery ≠ DiscoveryPC.returned := by
  refine ⟨by decide, ⟨(List.range 16).map (fun i => ⟨16 + i, []⟩),
    List.replicate 16 WorkerPC.returned, DiscoveryPC.sending ⟨32, []⟩, true⟩,
    by decide, rfl, by decide, by decide, rfl, ?_⟩
  intro as s1 h
  have e := run_blocked ⟨32, []⟩ as _ s1 rfl (by decide) (by decide) rfl h
  subst e
  exact ⟨rfl, by decide⟩

/-- Claim C5 fails on the code (a walk can stay at its send for ever): on the DHT
`thirtyThree`, a finite universe without neighbours, the channel of `NewCrawler` takes 32
values under the schedule `blockedSchedule` (16 received by the workers, 16 buffered) and then
no schedule completes another send; on that channel the round walks the peers `0 .. 31`, and
the walk of peer 32 registers it, arrives at `c.work <- pi` and stays there whatever the
recursion budget, so `crawlPeer` does not return; the round is blocked with budget 2 as well,
which is the budget that suffices against infinite recursion here (`crawlPeer_settles` with
`U` empty). The same walk returns on a channel that takes every send, as does the walk of
scenario S2, which sends `A` and `B` once each. -/
theorem walk_blocked_at_send :
    (List.count Action.completeSend blockedSchedule = 32 ∧
      ∃ s : System,
        run blockedSchedule NewSystem = some s ∧
        s.discovery = DiscoveryPC.sending ⟨32, []⟩ ∧
        ∀ (as : List Action) (s1 : System), run as s = some s1 →
          s1.queue = s.queue ∧ s1.discovery = DiscoveryPC.sending ⟨32, []⟩) ∧
    (afterThirtyTwo.halted = none ∧ afterThirtyTwo.peers = Finset.range 32 ∧
      afterThirtyTwo.work = (List.range 32).map (fun p => (⟨p, []⟩ : PeerInfo))) ∧
    (∀ n : Nat,
      (crawlPeer thirtyThree.toDHT limited (n + 1) 32 afterThirtyTwo).halted =
        some Halt.blocked ∧
      (32 : PeerID) ∈ (crawlPeer thirtyThree.toDHT limited (n + 1) 32 afterThirtyTwo).peers ∧
      sent (crawlPeer thirtyThree.toDHT limited (n + 1) 32 afterThirtyTwo).trace =
        thirtyThreeSends) ∧
    (crawlFromAnchor thirtyThree.toDHT limited 2 "anchor" (NewCrawler 32)).halted =
      some Halt.blocked ∧
    (crawlPeer thirtyThree.toDHT ready 1 32 afterThirtyTwo).halted = none ∧
    ((crawlPeer s2.toDHT ready 3 0 (NewCrawler ())).halted = none ∧
      (crawlPeer s2.toDHT ready 3 0 (NewCrawler ())).work = [⟨0, [10]⟩, ⟨1, [11]⟩]) := by
  refine ⟨⟨by decide, ⟨(List.range 16).map (fun i => ⟨16 + i, []⟩),
    List.replicate 16 WorkerPC.returned, DiscoveryPC.sending ⟨32, []⟩, true⟩,
    by decide, rfl, ?_⟩, by decide, ?_, by decide, by decide, by decide⟩
  · intro as s1 h
    have e := run_blocked ⟨32, []⟩ as _ s1 rfl (by decide) (by decide) rfl h
    subst e
    exact ⟨rfl, rfl⟩
  · intro n
    have h := crawlPeer_blocked thirtyThree.toDHT limited n 32 afterThirtyTwo ⟨32, []⟩ 0 0
      (by decide) (by decide) (by decide) (by decide)
    rw [h]
    exact ⟨rfl, Finset.mem_insert_self _ _, by decide⟩

end IpfsCrawl
